import Mathlib

/-!
Verification of the `binary_serializer` repository (Rust): a shallow
embedding in Lean of the wire-format codec, the byte-buffer
encoder/decoder backends, the derive-generated composite procedures,
and the error model, together with proofs of the specification's
claims about them.

Modelling conventions.

Bytes are `Nat`s below 256 gathered in `List Nat`; machine integers are
`Nat`/`Int` with explicit `% 2^w` where overflow matters.  The host is
modelled as the 64-bit little-endian platform the crate's tests and
benchmarks run on; where a claim quantifies over the host pointer
width, that width is an explicit parameter.  Floating-point scalars are
carried by the codec as raw bit patterns (the code only moves their
bytes), so they are covered by the unsigned-scalar case of a given
width.  Rust panics are modelled by `Option`-valued functions
(`none` = panic); fallible decoding returns `Except DecoderError`.
-/

/- ===== Endianness (src/src/common.rs, binary_serializer/src/common.rs) ===== -/

/-- `ByteEndian` from `common.rs`: the two-valued endianness setting. -/
inductive ByteEndian where
  | Big : ByteEndian
  | Little : ByteEndian
deriving DecidableEq, Repr

/-- `ByteEndian::is_native` on the (little-endian) host the crate's tests
and benchmarks target: `cfg!(target_endian = "little")` is true. -/
def ByteEndian.isNative : ByteEndian → Bool
  | .Big => false
  | .Little => true

/- ===== Fixed-width byte conversion (the `EndianValue` impls) ===== -/

/-- Little-endian byte representation of `v` in `w` bytes: the Lean
rendering of `to_le_bytes` for a `w`-byte unsigned scalar. -/
def byteLE : Nat → Nat → List Nat
  | 0, _ => []
  | w + 1, v => v % 256 :: byteLE w (v / 256)

/-- Value of a little-endian byte list: the Lean rendering of
`from_le_bytes` for unsigned scalars. -/
def fromLE : List Nat → Nat
  | [] => 0
  | b :: bs => b + 256 * fromLE bs

/-- `EndianValue::to_bytes_of` (src/src/common.rs:38-43): dispatch on the
endianness parameter; the big-endian form is the byte reversal. -/
def toBytesOf (e : ByteEndian) (w v : Nat) : List Nat :=
  match e with
  | .Little => byteLE w v
  | .Big => (byteLE w v).reverse

/-- `EndianValue::from_bytes_of` (src/src/common.rs:31-36). -/
def fromBytesOf (e : ByteEndian) (bs : List Nat) : Nat :=
  match e with
  | .Little => fromLE bs
  | .Big => fromLE bs.reverse

theorem byteLE_length (w v : Nat) : (byteLE w v).length = w := by
  induction w generalizing v with
  | zero => rfl
  | succ w ih => simp [byteLE, ih]

theorem toBytesOf_length (e : ByteEndian) (w v : Nat) :
    (toBytesOf e w v).length = w := by
  cases e <;> simp [toBytesOf, byteLE_length]

theorem fromLE_byteLE (w v : Nat) (h : v < 256 ^ w) :
    fromLE (byteLE w v) = v := by
  induction w generalizing v with
  | zero =>
    simp [byteLE, fromLE]
    omega
  | succ w ih =>
    have hdiv : v / 256 < 256 ^ w := by
      rw [Nat.div_lt_iff_lt_mul (by norm_num)]
      calc v < 256 ^ (w + 1) := h
        _ = 256 ^ w * 256 := by ring
    simp [byteLE, fromLE, ih _ hdiv]
    omega

theorem fromBytesOf_toBytesOf (e : ByteEndian) (w v : Nat) (h : v < 256 ^ w) :
    fromBytesOf e (toBytesOf e w v) = v := by
  cases e <;> simp [fromBytesOf, toBytesOf, fromLE_byteLE w v h]

/- Signed scalars travel as their two's-complement bit pattern (the
`to_le_bytes`/`from_le_bytes` of Rust's iN). -/

/-- Two's-complement wire pattern of a signed value in `w` bytes. -/
def sToWire (w : Nat) (i : Int) : Nat := (i % (2 ^ (8 * w))).toNat

/-- Signed value read back from a `w`-byte wire pattern. -/
def sFromWire (w : Nat) (n : Nat) : Int :=
  if n < 2 ^ (8 * w - 1) then (n : Int) else (n : Int) - 2 ^ (8 * w)

theorem int_pow_cast (n : Nat) : ((2 ^ n : Nat) : Int) = (2:Int) ^ n := by
  push_cast
  ring

theorem sToWire_lt (w : Nat) (i : Int) :
    sToWire w i < 256 ^ w := by
  have h2 : (0:Int) < 2 ^ (8 * w) := by positivity
  have hlt := Int.emod_lt_of_pos i h2
  have hnn := Int.emod_nonneg i (by positivity : (2:Int) ^ (8 * w) ≠ 0)
  have h256 : (256:Nat) ^ w = 2 ^ (8 * w) := by
    rw [show (256:Nat) = 2 ^ 8 by norm_num, ← pow_mul]
  have hcast := int_pow_cast (8 * w)
  rw [sToWire, h256]
  omega

theorem sFromWire_sToWire (w : Nat) (i : Int) (hw : 0 < w)
    (hlo : -(2 ^ (8 * w - 1)) ≤ i) (hhi : i < 2 ^ (8 * w - 1)) :
    sFromWire w (sToWire w i) = i := by
  have hhalf : (2:Int) ^ (8 * w) = 2 ^ (8 * w - 1) * 2 := by
    conv_lhs => rw [show 8 * w = (8 * w - 1) + 1 by omega]
    rw [pow_succ]
  have hcastFull := int_pow_cast (8 * w)
  have hcastHalf := int_pow_cast (8 * w - 1)
  rcases le_or_lt 0 i with hpos | hneg
  · have hlt : i < 2 ^ (8 * w) := by omega
    have hmod : i % 2 ^ (8 * w) = i := Int.emod_eq_of_lt hpos hlt
    have htn : ((i.toNat : Nat) : Int) = i := Int.toNat_of_nonneg hpos
    simp only [sToWire, sFromWire, hmod]
    split
    · omega
    · rename_i hcond
      exfalso
      have : ¬ ((i.toNat : Int) < ((2 ^ (8 * w - 1) : Nat) : Int)) := by
        exact_mod_cast hcond
      omega
  · have key : i % 2 ^ (8 * w) = i + 2 ^ (8 * w) := by
      have h1 : i % 2 ^ (8 * w) = (i + 2 ^ (8 * w) * 1) % 2 ^ (8 * w) := by
        rw [Int.add_mul_emod_self_left]
      rw [h1, mul_one]
      apply Int.emod_eq_of_lt <;> omega
    simp only [sToWire, sFromWire, key]
    have hnn : (0:Int) ≤ i + 2 ^ (8 * w) := by omega
    have htn : (((i + 2 ^ (8 * w)).toNat : Nat) : Int) = i + 2 ^ (8 * w) :=
      Int.toNat_of_nonneg hnn
    split
    · rename_i hcond
      exfalso
      have : (((i + 2 ^ (8 * w)).toNat : Nat) : Int) < ((2 ^ (8 * w - 1) : Nat) : Int) := by
        exact_mod_cast hcond
      omega
    · omega

/- ===== Error model and byte-buffer decoder (src/src/decoder.rs) ===== -/

/-- `DecoderError` (src/src/decoder.rs:12-19) extended with the third
member of the taxonomy.  `Custom` is modelled from the spec: the
`DecoderError::custom` constructor lives in the missing
`binary_serializer/src/decoder.rs`; the derive macro
(binary_serializer_derive/src/lib.rs:207) invokes it as
`DecoderError::custom("Invalid Enum")` for an out-of-range enum
variant index, and the spec calls this member `InvalidEnumVariant`. -/
inductive DecoderError where
  | NotEnoughBytes (tyName : String) (index : Nat)
  | InvalidUTF16
  | Custom (msg : String)
deriving DecidableEq, Repr

/-- `ByteDecoder` (src/src/decoder.rs:98-102): input buffer, fixed
endianness, mutable cursor. -/
structure ByteDecoder where
  bytes : List Nat
  endian : ByteEndian
  index : Nat
deriving Repr

/-- `ByteDecoder::read_bytes` (src/src/decoder.rs:111-121), with the
post-call state returned in both outcomes so that the cursor's
behaviour on failure is expressible: `self.bytes.get(index..index+SIZE)`
succeeds exactly when `index + SIZE <= len`; on failure the error is
built from the attempted type's name and the cursor, and `self.index`
is not touched; on success the cursor advances by exactly `SIZE`. -/
def readBytesSt (sz : Nat) (tyName : String) (d : ByteDecoder) :
    Except DecoderError (List Nat) × ByteDecoder :=
  if d.index + sz ≤ d.bytes.length then
    (.ok ((d.bytes.drop d.index).take sz), { d with index := d.index + sz })
  else
    (.error (.NotEnoughBytes tyName d.index), d)

/-- `read_bytes` in the `?`-propagation form used by the decode methods:
the state is produced only on success. -/
def readBytes (sz : Nat) (tyName : String) (d : ByteDecoder) :
    Except DecoderError (List Nat × ByteDecoder) :=
  match readBytesSt sz tyName d with
  | (.ok bs, d1) => .ok (bs, d1)
  | (.error er, _) => .error er

/-- An unsigned scalar decode of width `w` (the common shape of
`decode_u8` .. `decode_u128` in src/src/decoder.rs:125-129): read the
bytes, convert per the active endianness via `from_bytes_of`. -/
def decodeUIntB (w : Nat) (tyName : String) (d : ByteDecoder) :
    Except DecoderError (Nat × ByteDecoder) :=
  match readBytes w tyName d with
  | .ok (bs, d1) => .ok (fromBytesOf d.endian bs, d1)
  | .error er => .error er

/-- A signed scalar decode of width `w` (`decode_i8` .. `decode_i128`). -/
def decodeSIntB (w : Nat) (tyName : String) (d : ByteDecoder) :
    Except DecoderError (Int × ByteDecoder) :=
  match readBytes w tyName d with
  | .ok (bs, d1) => .ok (sFromWire w (fromBytesOf d.endian bs), d1)
  | .error er => .error er

/-- `Decoder::decode_usize` (src/src/decoder.rs:51): `decode_u64`
followed by an `as usize` cast, which on the modelled 64-bit host is
the identity. -/
def decodeUsizeB (d : ByteDecoder) : Except DecoderError (Nat × ByteDecoder) :=
  decodeUIntB 8 "u64" d

/-- `Decoder::decode_bool` (src/src/decoder.rs:63): one byte, any
nonzero value decodes to `true`. -/
def decodeBoolB (d : ByteDecoder) : Except DecoderError (Bool × ByteDecoder) :=
  match decodeUIntB 1 "u8" d with
  | .ok (n, d1) => .ok (n ≠ 0, d1)
  | .error er => .error er

theorem readBytesSt_endian (sz : Nat) (nm : String) (d : ByteDecoder) :
    (readBytesSt sz nm d).2.endian = d.endian := by
  unfold readBytesSt
  split <;> rfl

/-- Reading `mid.length` bytes from `pre ++ mid ++ rest` at cursor
`pre.length` extracts exactly `mid` and advances past it. -/
theorem readBytes_extract (nm : String) (e : ByteEndian)
    (pre mid rest : List Nat) :
    readBytes mid.length nm ⟨pre ++ mid ++ rest, e, pre.length⟩ =
      .ok (mid, ⟨pre ++ mid ++ rest, e, pre.length + mid.length⟩) := by
  have hlen : pre.length + mid.length ≤ (pre ++ mid ++ rest).length := by
    simp only [List.length_append]
    omega
  have hdrop : (pre ++ mid ++ rest).drop pre.length = mid ++ rest := by
    rw [List.append_assoc, List.drop_left]
  have htake : (mid ++ rest).take mid.length = mid := List.take_left mid rest
  simp [readBytes, readBytesSt, hlen, hdrop, htake]

/-- Reading more bytes than remain fails with `NotEnoughBytes` at the
current cursor. -/
theorem readBytes_fail (sz : Nat) (nm : String) (e : ByteEndian)
    (pre p : List Nat) (h : p.length < sz) :
    readBytes sz nm ⟨pre ++ p, e, pre.length⟩ =
      .error (.NotEnoughBytes nm pre.length) := by
  have hc : ¬ (pre.length + sz ≤ (pre ++ p).length) := by
    simp only [List.length_append]
    omega
  have hc2 : ¬ (sz ≤ p.length) := by omega
  simp [readBytes, readBytesSt, hc, hc2]

/- ===== Byte-buffer encoder ===== -/

/-- The byte-buffer encoder of the `binary_serializer` crate.
Modelled from the spec: `binary_serializer/src/encoder.rs` is absent
from the sources (only its callers — `to_bytes(value, endianness)` in
the crate's tests — and the spec describe it); per §4.3 it is a single
growable byte buffer plus the endianness fixed at construction. -/
structure ByteEncoderE where
  bytes : List Nat
  endian : ByteEndian
deriving Repr

/-- An unsigned scalar encode of width `w`.  Modelled from the spec
(§4.3, the missing `binary_serializer/src/encoder.rs`): every
`encode_<scalar>` appends that scalar's endian-ordered bytes, the
endian dispatch being `EndianValue::to_bytes_of` from the present
`common.rs`. -/
def encodeUIntE (w v : Nat) (st : ByteEncoderE) : ByteEncoderE :=
  { st with bytes := st.bytes ++ toBytesOf st.endian w v }

/-- `Encoder::encode_usize` (src/src/encoder.rs:13, a trait-default
method present in the sources): `encode_u64(value as u64)`, hence
always the 8-byte form. -/
def encodeUsizeE (v : Nat) (st : ByteEncoderE) : ByteEncoderE :=
  encodeUIntE 8 v st

/- ===== The two historical `encode_slice` bodies (for the panic claim) ===== -/

/-- Concatenated element encodings of a slice, element order preserved. -/
def sliceBody (f : α → List Nat) (xs : List α) : List Nat :=
  (xs.map f).flatten

/-- `ByteEncoder::encode_slice` of the v0 prototype
(src/src/lib.rs:85-114): encodes the elements, then inserts
`[total_bytes][bytes_per_element]` (host-width native-endian words)
before them.  `total_bytes.checked_div(value.len())` is `None` for an
empty slice, and v0 then hits `panic!("All elements must be the same
size.")` unconditionally (src/src/lib.rs:94-97); the panic is modelled
as `none`. -/
def encodeSliceV0 (f : α → List Nat) (xs : List α) : Option (List Nat) :=
  let body := sliceBody f xs
  match xs.length with
  | 0 => none
  | n + 1 => some (byteLE 8 body.length ++ byteLE 8 (body.length / (n + 1)) ++ body)

/-- `ByteEncoder::encode_slice` of src/src/encoder.rs:87-119: same
two-word layout, but the `checked_div == None` case first checks
`total_bytes != 0` and only then panics (src/src/encoder.rs:96-101);
an empty slice has `total_bytes == 0` and proceeds with
`bytes_per_element = 0`. -/
def encodeSliceCur (f : α → List Nat) (xs : List α) : Option (List Nat) :=
  let body := sliceBody f xs
  match xs.length with
  | 0 =>
    if body.length ≠ 0 then none
    else some (byteLE 8 body.length ++ byteLE 8 0 ++ body)
  | n + 1 => some (byteLE 8 body.length ++ byteLE 8 (body.length / (n + 1)) ++ body)

/- ===== UTF-16 well-formedness (String::from_utf16's success domain) ===== -/

/-- Well-formed UTF-16: a high surrogate (0xD800-0xDBFF) must be
followed by a low surrogate (0xDC00-0xDFFF); a lone low surrogate is
ill-formed.  `String::from_utf16` (used by `decode_string`,
src/src/decoder.rs:76-80) succeeds exactly on such unit sequences. -/
def utf16WellFormed : List Nat → Bool
  | [] => true
  | u :: rest =>
    if 0xD800 ≤ u ∧ u ≤ 0xDBFF then
      match rest with
      | u2 :: rest2 => (decide (0xDC00 ≤ u2 ∧ u2 ≤ 0xDFFF)) && utf16WellFormed rest2
      | [] => false
    else
      (!(decide (0xDC00 ≤ u ∧ u ≤ 0xDFFF))) && utf16WellFormed rest

/- ===== Wire types and wire values ===== -/

/- The shape language of supported wire values: unsigned scalars of a
given byte width (u8..u128, usize, and floats as bit patterns), signed
scalars (i8..i128, isize), bool, UTF-16 strings, length-prefixed
sequences, tuple-like composites (tuples, tuple structs, named-field
structs — identical wire rules per §4.4), enums (a variant list, each
a field-type list), and maps. -/
mutual

inductive Ty where
  | uintT (w : Nat) : Ty
  | sintT (w : Nat) : Ty
  | boolT : Ty
  | strT : Ty
  | seqT (elem : Ty) : Ty
  | tupT (fields : TyList) : Ty
  | enumT (variants : TyVariants) : Ty
  | mapT (key val : Ty) : Ty

inductive TyList where
  | nil : TyList
  | cons (t : Ty) (rest : TyList) : TyList

inductive TyVariants where
  | nil : TyVariants
  | cons (fields : TyList) (rest : TyVariants) : TyVariants

end

/- Supported runtime values, mirroring `Ty`. -/
mutual

inductive Value where
  | uintV (w : Nat) (v : Nat) : Value
  | sintV (w : Nat) (v : Int) : Value
  | boolV (b : Bool) : Value
  | strV (units : List Nat) : Value
  | seqV (elems : ValueList) : Value
  | tupV (fields : ValueList) : Value
  | enumV (idx : Nat) (payload : ValueList) : Value
  | mapV (entries : EntryList) : Value

inductive ValueList where
  | nil : ValueList
  | cons (v : Value) (rest : ValueList) : ValueList

inductive EntryList where
  | nil : EntryList
  | cons (k v : Value) (rest : EntryList) : EntryList

end

def TyVariants.count : TyVariants → Nat
  | .nil => 0
  | .cons _ rest => rest.count + 1

def TyVariants.nth : TyVariants → Nat → Option TyList
  | .nil, _ => none
  | .cons ts _, 0 => some ts
  | .cons _ rest, n + 1 => rest.nth n

def ValueList.length : ValueList → Nat
  | .nil => 0
  | .cons _ rest => rest.length + 1

def EntryList.length : EntryList → Nat
  | .nil => 0
  | .cons _ _ rest => rest.length + 1

def EntryList.append : EntryList → EntryList → EntryList
  | .nil, l => l
  | .cons k v rest, l => .cons k v (rest.append l)

/- Structural equality of values, the model of the derived `Eq`/`Hash`
agreement `HashMap` keys are compared with. -/
mutual

def valueBeq : Value → Value → Bool
  | .uintV w v, .uintV w2 v2 => w == w2 && v == v2
  | .sintV w v, .sintV w2 v2 => w == w2 && v == v2
  | .boolV b, .boolV b2 => b == b2
  | .strV us, .strV us2 => us == us2
  | .seqV es, .seqV es2 => valueListBeq es es2
  | .tupV fs, .tupV fs2 => valueListBeq fs fs2
  | .enumV i p, .enumV i2 p2 => i == i2 && valueListBeq p p2
  | .mapV en, .mapV en2 => entryListBeq en en2
  | _, _ => false

def valueListBeq : ValueList → ValueList → Bool
  | .nil, .nil => true
  | .cons v rest, .cons v2 rest2 => valueBeq v v2 && valueListBeq rest rest2
  | _, _ => false

def entryListBeq : EntryList → EntryList → Bool
  | .nil, .nil => true
  | .cons k v rest, .cons k2 v2 rest2 =>
    valueBeq k k2 && valueBeq v v2 && entryListBeq rest rest2
  | _, _ => false

end

/- ===== HashMap model (decode side of `decode_map`) ===== -/

/-- `HashMap::insert` on the association-list model: replace the entry
whose key equals `k`, else append.  The list order stands for the
iteration order the map exposes. -/
def entryInsert (k v : Value) : EntryList → EntryList
  | .nil => .cons k v .nil
  | .cons k2 v2 rest =>
    if valueBeq k k2 then .cons k v rest
    else .cons k2 v2 (entryInsert k v rest)

/-- The rebuild loop of `decode_map` (src/src/decoder.rs:82-91): insert
every decoded entry, in order, into an initially empty map. -/
def mapRebuildGo : EntryList → EntryList → EntryList
  | acc, .nil => acc
  | acc, .cons k v rest => mapRebuildGo (entryInsert k v acc) rest

def mapRebuild (ents : EntryList) : EntryList :=
  mapRebuildGo .nil ents

/-- `valueBeq k k2 = false` for every key `k2` of the list: `k` is fresh
for an accumulated map. -/
def keyNotInE (k : Value) : EntryList → Bool
  | .nil => true
  | .cons k2 _ rest => !(valueBeq k k2) && keyNotInE k rest

/-- All the later keys differ (in the insert direction) from `k`. -/
def laterKeysNotBeq (k : Value) : EntryList → Bool
  | .nil => true
  | .cons k2 _ rest => !(valueBeq k2 k) && laterKeysNotBeq k rest

/-- Pairwise-distinct keys, the `HashMap` invariant an encoded map's
entry sequence satisfies. -/
def keysFresh : EntryList → Bool
  | .nil => true
  | .cons k _ rest => laterKeysNotBeq k rest && keysFresh rest

/- ===== Validity: the capability contract a Rust value satisfies ===== -/

/- `validV v t` says the Lean value `v` models a well-typed Rust value
of shape `t`: scalar ranges are the machine ranges, string units are
the (well-formed) UTF-16 units `str.encode_utf16()` yields, sequence
and map lengths fit `usize`, an enum carries a declared variant index
with that variant's fields, and map keys are pairwise distinct as
`HashMap` guarantees. -/
mutual

def validV : Value → Ty → Bool
  | .uintV w v, .uintT w2 => w == w2 && decide (v < 256 ^ w)
  | .sintV w v, .sintT w2 =>
    w == w2 && decide (0 < w) &&
      decide (-(2 ^ (8 * w - 1)) ≤ v) && decide (v < 2 ^ (8 * w - 1))
  | .boolV _, .boolT => true
  | .strV us, .strT =>
    decide (us.length < 256 ^ 8) && us.all (fun u => decide (u < 256 ^ 2)) &&
      utf16WellFormed us
  | .seqV es, .seqT t => decide (es.length < 256 ^ 8) && validElems es t
  | .tupV fs, .tupT ts => validFields fs ts
  | .enumV i p, .enumT vs =>
    decide (i < 256 ^ 8) &&
      (match vs.nth i with
       | some ts => validFields p ts
       | none => false)
  | .mapV en, .mapT kt vt =>
    decide (en.length < 256 ^ 8) && keysFresh en && validEntries en kt vt
  | _, _ => false

def validElems : ValueList → Ty → Bool
  | .nil, _ => true
  | .cons v rest, t => validV v t && validElems rest t

def validFields : ValueList → TyList → Bool
  | .nil, .nil => true
  | .cons v rest, .cons t ts => validV v t && validFields rest ts
  | _, _ => false

def validEntries : EntryList → Ty → Ty → Bool
  | .nil, _, _ => true
  | .cons k v rest, kt, vt => validV k kt && validV v vt && validEntries rest kt vt

end

/- ===== Encoding ===== -/

/-- UTF-16 code units encoded as consecutive u16 scalars (the element
loop of `encode_slice::<u16>` reached from `encode_string`,
src/src/encoder.rs:80-85). -/
def encodeUnits (e : ByteEndian) : List Nat → List Nat
  | [] => []
  | u :: us => toBytesOf e 2 u ++ encodeUnits e us

/- The derived / composite encode procedures.  The scalar appends and
the `encode_slice` count prefix are modelled from the spec (§4.2-§4.3,
the missing `binary_serializer/src/encoder.rs`, exercised by the
crate's round-trip tests): a sequence is its element count as a
portable 8-byte usize followed by each element's encoding in order.
The composite rules are the source's: strings via UTF-16 code-unit
slices (src/src/encoder.rs:80-85), maps linearized as key-then-value
entries (common.rs `MapEntry` impls), tuple/struct fields in
declaration order and enums as usize variant index then payload
(binary_serializer_derive/src/lib.rs). -/
mutual

def encodeValue (e : ByteEndian) : Value → List Nat
  | .uintV w v => toBytesOf e w v
  | .sintV w v => toBytesOf e w (sToWire w v)
  | .boolV b => [if b then 1 else 0]
  | .strV us => toBytesOf e 8 us.length ++ encodeUnits e us
  | .seqV es => toBytesOf e 8 es.length ++ encodeList e es
  | .tupV fs => encodeList e fs
  | .enumV idx p => toBytesOf e 8 idx ++ encodeList e p
  | .mapV en => toBytesOf e 8 en.length ++ encodeEntries e en

def encodeList (e : ByteEndian) : ValueList → List Nat
  | .nil => []
  | .cons v rest => encodeValue e v ++ encodeList e rest

def encodeEntries (e : ByteEndian) : EntryList → List Nat
  | .nil => []
  | .cons k v rest => encodeValue e k ++ (encodeValue e v ++ encodeEntries e rest)

end

/- ===== Decoding ===== -/

theorem Ty.sizeOf_pos (t : Ty) : 0 < sizeOf t := by
  cases t <;> simp

theorem TyVariants.nth_sizeOf (vs : TyVariants) (i : Nat) (ts : TyList)
    (h : vs.nth i = some ts) : sizeOf ts < sizeOf vs := by
  induction i generalizing vs with
  | zero =>
    cases vs with
    | nil => simp [TyVariants.nth] at h
    | cons fields rest =>
      simp [TyVariants.nth] at h
      subst h
      simp
      omega
  | succ n ih =>
    cases vs with
    | nil => simp [TyVariants.nth] at h
    | cons fields rest =>
      have := ih rest (by simpa [TyVariants.nth] using h)
      simp
      omega

/-- The element loop of `decode_slice::<u16>` reached from
`decode_string` (src/src/decoder.rs:65-74): `len` consecutive u16
decodes, first failure propagated. -/
def decodeUnits : Nat → ByteDecoder → Except DecoderError (List Nat × ByteDecoder)
  | 0, d => .ok ([], d)
  | n + 1, d =>
    match decodeUIntB 2 "u16" d with
    | .error er => .error er
    | .ok (u, d1) =>
      match decodeUnits n d1 with
      | .error er => .error er
      | .ok (us, d2) => .ok (u :: us, d2)

/- The type-directed decode procedures, from src/src/decoder.rs (the
generic `decode_slice`/`decode_string`/`decode_map`/`decode_value`
trait methods and the `ByteDecoder` scalar reads) and from the decode
procedures the derive macro generates for tuples/structs/enums
(binary_serializer_derive/src/lib.rs:135-210): a slice decode reads a
usize count and then exactly that many element decodes; a string
re-validates UTF-16; a map decode reads entries (key then value) and
rebuilds by insertion; an enum decode reads the usize variant index,
dispatches on it, and rejects an out-of-range index with the
invalid-enum-variant error. -/
mutual

def decodeTy : Ty → ByteDecoder → Except DecoderError (Value × ByteDecoder)
  | .uintT w, d =>
    match decodeUIntB w "uint" d with
    | .error er => .error er
    | .ok (v, d1) => .ok (.uintV w v, d1)
  | .sintT w, d =>
    match decodeSIntB w "sint" d with
    | .error er => .error er
    | .ok (v, d1) => .ok (.sintV w v, d1)
  | .boolT, d =>
    match decodeBoolB d with
    | .error er => .error er
    | .ok (b, d1) => .ok (.boolV b, d1)
  | .strT, d =>
    match decodeUsizeB d with
    | .error er => .error er
    | .ok (len, d1) =>
      match decodeUnits len d1 with
      | .error er => .error er
      | .ok (us, d2) =>
        if utf16WellFormed us then .ok (.strV us, d2)
        else .error .InvalidUTF16
  | .seqT t, d =>
    match decodeUsizeB d with
    | .error er => .error er
    | .ok (len, d1) =>
      match decodeElems t len d1 with
      | .error er => .error er
      | .ok (es, d2) => .ok (.seqV es, d2)
  | .tupT ts, d =>
    match decodeFields ts d with
    | .error er => .error er
    | .ok (fs, d1) => .ok (.tupV fs, d1)
  | .enumT vs, d =>
    match decodeUsizeB d with
    | .error er => .error er
    | .ok (idx, d1) =>
      match hnth : vs.nth idx with
      | none => .error (.Custom "Invalid Enum")
      | some ts =>
        match decodeFields ts d1 with
        | .error er => .error er
        | .ok (fs, d2) => .ok (.enumV idx fs, d2)
  | .mapT kt vt, d =>
    match decodeUsizeB d with
    | .error er => .error er
    | .ok (len, d1) =>
      match decodeEntriesN kt vt len d1 with
      | .error er => .error er
      | .ok (en, d2) => .ok (.mapV (mapRebuild en), d2)
termination_by t d => (sizeOf t, 0)
decreasing_by
  all_goals simp_wf
  all_goals
    first
      | exact Prod.Lex.right _ (by omega)
      | exact Prod.Lex.left _ _ (by omega)
      | exact Prod.Lex.left _ _ (by
          have h1 := Ty.sizeOf_pos kt
          have h2 := Ty.sizeOf_pos vt
          omega)
      | exact Prod.Lex.left _ _ (by
          have := TyVariants.nth_sizeOf _ _ _ hnth
          omega)

def decodeElems : Ty → Nat → ByteDecoder → Except DecoderError (ValueList × ByteDecoder)
  | _, 0, d => .ok (.nil, d)
  | t, n + 1, d =>
    match decodeTy t d with
    | .error er => .error er
    | .ok (v, d1) =>
      match decodeElems t n d1 with
      | .error er => .error er
      | .ok (vs, d2) => .ok (.cons v vs, d2)
termination_by t n d => (sizeOf t, n + 1)
decreasing_by
  all_goals simp_wf
  all_goals
    first
      | exact Prod.Lex.right _ (by omega)
      | exact Prod.Lex.left _ _ (by omega)
      | exact Prod.Lex.left _ _ (by
          have h1 := Ty.sizeOf_pos kt
          have h2 := Ty.sizeOf_pos vt
          omega)
      | exact Prod.Lex.left _ _ (by
          have := TyVariants.nth_sizeOf _ _ _ hnth
          omega)

def decodeFields : TyList → ByteDecoder → Except DecoderError (ValueList × ByteDecoder)
  | .nil, d => .ok (.nil, d)
  | .cons t ts, d =>
    match decodeTy t d with
    | .error er => .error er
    | .ok (v, d1) =>
      match decodeFields ts d1 with
      | .error er => .error er
      | .ok (vs, d2) => .ok (.cons v vs, d2)
termination_by ts d => (sizeOf ts, 0)
decreasing_by
  all_goals simp_wf
  all_goals
    first
      | exact Prod.Lex.right _ (by omega)
      | exact Prod.Lex.left _ _ (by omega)
      | exact Prod.Lex.left _ _ (by
          have h1 := Ty.sizeOf_pos kt
          have h2 := Ty.sizeOf_pos vt
          omega)
      | exact Prod.Lex.left _ _ (by
          have := TyVariants.nth_sizeOf _ _ _ hnth
          omega)

def decodeEntriesN : Ty → Ty → Nat → ByteDecoder → Except DecoderError (EntryList × ByteDecoder)
  | _, _, 0, d => .ok (.nil, d)
  | kt, vt, n + 1, d =>
    match decodeTy kt d with
    | .error er => .error er
    | .ok (k, d1) =>
      match decodeTy vt d1 with
      | .error er => .error er
      | .ok (v, d2) =>
        match decodeEntriesN kt vt n d2 with
        | .error er => .error er
        | .ok (en, d3) => .ok (.cons k v en, d3)
termination_by kt vt n d => (sizeOf kt + sizeOf vt, n + 1)
decreasing_by
  all_goals simp_wf
  all_goals
    first
      | exact Prod.Lex.right _ (by omega)
      | exact Prod.Lex.left _ _ (by omega)
      | exact Prod.Lex.left _ _ (by
          have h1 := Ty.sizeOf_pos kt
          have h2 := Ty.sizeOf_pos vt
          omega)
      | exact Prod.Lex.left _ _ (by
          have := TyVariants.nth_sizeOf _ _ _ hnth
          omega)

end

/-- `FromBytes::from_bytes` (src/src/decoder.rs:139-144): construct a
fresh `ByteDecoder` over the input and run the value's decode. -/
def fromBytesM (t : Ty) (bytes : List Nat) (e : ByteEndian) :
    Except DecoderError Value :=
  match decodeTy t ⟨bytes, e, 0⟩ with
  | .ok (v, _) => .ok v
  | .error er => .error er

/-- `ToBytes::to_bytes` of the `binary_serializer` crate.  Modelled from
the spec (§6): a fresh encoder with the chosen endianness, then the
value's encode; the result is its buffer. -/
def toBytesM (v : Value) (e : ByteEndian) : List Nat :=
  encodeValue e v

/- ===== Scalar-level decode lemmas ===== -/

theorem decodeUIntB_extract (w : Nat) (nm : String) (e : ByteEndian)
    (pre rest : List Nat) (v : Nat) (h : v < 256 ^ w) :
    decodeUIntB w nm ⟨pre ++ (toBytesOf e w v ++ rest), e, pre.length⟩ =
      .ok (v, ⟨pre ++ (toBytesOf e w v ++ rest), e, pre.length + w⟩) := by
  have hx := readBytes_extract nm e pre (toBytesOf e w v) rest
  rw [toBytesOf_length] at hx
  rw [List.append_assoc] at hx
  simp [decodeUIntB, hx, fromBytesOf_toBytesOf e w v h]

theorem decodeUIntB_fail (w : Nat) (nm : String) (e : ByteEndian)
    (pre p : List Nat) (h : p.length < w) :
    decodeUIntB w nm ⟨pre ++ p, e, pre.length⟩ =
      .error (.NotEnoughBytes nm pre.length) := by
  simp [decodeUIntB, readBytes_fail w nm e pre p h]

theorem decodeSIntB_extract (w : Nat) (nm : String) (e : ByteEndian)
    (pre rest : List Nat) (i : Int) (hw : 0 < w)
    (hlo : -(2 ^ (8 * w - 1)) ≤ i) (hhi : i < 2 ^ (8 * w - 1)) :
    decodeSIntB w nm ⟨pre ++ (toBytesOf e w (sToWire w i) ++ rest), e, pre.length⟩ =
      .ok (i, ⟨pre ++ (toBytesOf e w (sToWire w i) ++ rest), e, pre.length + w⟩) := by
  have hx := readBytes_extract nm e pre (toBytesOf e w (sToWire w i)) rest
  rw [toBytesOf_length] at hx
  rw [List.append_assoc] at hx
  simp [decodeSIntB, hx, fromBytesOf_toBytesOf e w _ (sToWire_lt w i),
    sFromWire_sToWire w i hw hlo hhi]

theorem decodeSIntB_fail (w : Nat) (nm : String) (e : ByteEndian)
    (pre p : List Nat) (h : p.length < w) :
    decodeSIntB w nm ⟨pre ++ p, e, pre.length⟩ =
      .error (.NotEnoughBytes nm pre.length) := by
  simp [decodeSIntB, readBytes_fail w nm e pre p h]

theorem toBytesOf_one (e : ByteEndian) (v : Nat) (h : v < 256) :
    toBytesOf e 1 v = [v] := by
  cases e <;> simp [toBytesOf, byteLE, Nat.mod_eq_of_lt h]

theorem decodeUnits_extract (e : ByteEndian) (us : List Nat)
    (h : us.all (fun u => decide (u < 256 ^ 2)) = true) (pre rest : List Nat) :
    decodeUnits us.length ⟨pre ++ (encodeUnits e us ++ rest), e, pre.length⟩ =
      .ok (us, ⟨pre ++ (encodeUnits e us ++ rest), e,
        pre.length + (encodeUnits e us).length⟩) := by
  cases us with
  | nil => simp [decodeUnits, encodeUnits]
  | cons u us =>
    simp only [List.all_cons, Bool.and_eq_true, decide_eq_true_eq] at h
    obtain ⟨hu, hus⟩ := h
    simp only [encodeUnits, List.append_assoc, List.length_cons]
    have hstep := decodeUIntB_extract 2 "u16" e pre (encodeUnits e us ++ rest) u hu
    simp only [List.append_assoc] at hstep
    have ihx := decodeUnits_extract e us (by simpa using hus) (pre ++ toBytesOf e 2 u) rest
    simp only [List.append_assoc, List.length_append, toBytesOf_length] at ihx
    simp [decodeUnits, hstep, ihx, List.length_append, toBytesOf_length]
    omega

/- ===== Map rebuild: distinct keys pass through unchanged ===== -/

theorem EntryList.append_assoc (a b c : EntryList) :
    (a.append b).append c = a.append (b.append c) := by
  cases a with
  | nil => rfl
  | cons k v rest => simp [EntryList.append, EntryList.append_assoc rest b c]

theorem entryInsert_fresh (k v : Value) (acc : EntryList)
    (h : keyNotInE k acc = true) :
    entryInsert k v acc = acc.append (.cons k v .nil) := by
  cases acc with
  | nil => rfl
  | cons k2 v2 rest =>
    simp only [keyNotInE, Bool.and_eq_true, Bool.not_eq_true'] at h
    simp [entryInsert, h.1, EntryList.append, entryInsert_fresh k v rest h.2]

/-- Every key of the first list is absent from the second. -/
def freshOver : EntryList → EntryList → Bool
  | .nil, _ => true
  | .cons k _ rest, acc => keyNotInE k acc && freshOver rest acc

theorem keyNotInE_append (k : Value) (a b : EntryList) :
    keyNotInE k (a.append b) = (keyNotInE k a && keyNotInE k b) := by
  cases a with
  | nil => simp [EntryList.append, keyNotInE]
  | cons k2 v2 rest =>
    simp [EntryList.append, keyNotInE, keyNotInE_append k rest b, Bool.and_assoc]

theorem freshOver_extend (rest acc : EntryList) (k : Value) (v : Value)
    (h1 : freshOver rest acc = true) (h2 : laterKeysNotBeq k rest = true) :
    freshOver rest (acc.append (.cons k v .nil)) = true := by
  cases rest with
  | nil => rfl
  | cons k2 v2 r =>
    simp only [freshOver, Bool.and_eq_true] at h1
    simp only [laterKeysNotBeq, Bool.and_eq_true, Bool.not_eq_true'] at h2
    simp [freshOver, keyNotInE_append, h1.1, keyNotInE, h2.1,
      freshOver_extend r acc k v h1.2 h2.2]

theorem freshOver_nil_acc (rest : EntryList) : freshOver rest .nil = true := by
  cases rest with
  | nil => rfl
  | cons k v r => simp [freshOver, keyNotInE, freshOver_nil_acc r]

theorem EntryList.append_nil (a : EntryList) : a.append .nil = a := by
  cases a with
  | nil => rfl
  | cons k v rest => simp [EntryList.append, EntryList.append_nil rest]

theorem mapRebuildGo_append (rest acc : EntryList)
    (h1 : keysFresh rest = true) (h2 : freshOver rest acc = true) :
    mapRebuildGo acc rest = acc.append rest := by
  cases rest with
  | nil => simp [mapRebuildGo, EntryList.append_nil]
  | cons k v r =>
    simp only [keysFresh, Bool.and_eq_true] at h1
    simp only [freshOver, Bool.and_eq_true] at h2
    rw [mapRebuildGo, entryInsert_fresh k v acc h2.1,
      mapRebuildGo_append r (acc.append (.cons k v .nil)) h1.2
        (freshOver_extend r acc k v h2.2 h1.1),
      EntryList.append_assoc]
    rfl

theorem mapRebuild_fresh (en : EntryList) (h : keysFresh en = true) :
    mapRebuild en = en := by
  rw [mapRebuild, mapRebuildGo_append en .nil h (freshOver_nil_acc en)]
  rfl

/- ===== Round trip: decode of encode restores the value ===== -/

mutual

theorem rtV (e : ByteEndian) (t : Ty) (v : Value) (h : validV v t = true)
    (pre rest : List Nat) :
    decodeTy t ⟨pre ++ (encodeValue e v ++ rest), e, pre.length⟩ =
      .ok (v, ⟨pre ++ (encodeValue e v ++ rest), e,
        pre.length + (encodeValue e v).length⟩) := by
  cases v with
  | uintV w n =>
    cases t
    all_goals try (simp only [validV] at h; exact absurd h Bool.false_ne_true)
    case uintT w2 =>
      rw [validV, Bool.and_eq_true, beq_iff_eq, decide_eq_true_eq] at h
      obtain ⟨hw, hn⟩ := h
      subst hw
      simp only [encodeValue]
      have h1 := decodeUIntB_extract w "uint" e pre rest n hn
      simp [decodeTy, h1, toBytesOf_length]
  | sintV w n =>
    cases t
    all_goals try (simp only [validV] at h; exact absurd h Bool.false_ne_true)
    case sintT w2 =>
      rw [validV, Bool.and_eq_true, Bool.and_eq_true, Bool.and_eq_true,
        beq_iff_eq, decide_eq_true_eq, decide_eq_true_eq, decide_eq_true_eq] at h
      obtain ⟨⟨⟨hw, hwpos⟩, hlo⟩, hhi⟩ := h
      subst hw
      simp only [encodeValue]
      have h1 := decodeSIntB_extract w "sint" e pre rest n hwpos hlo hhi
      simp [decodeTy, h1, toBytesOf_length]
  | boolV b =>
    cases t
    all_goals try (simp only [validV] at h; exact absurd h Bool.false_ne_true)
    case boolT =>
      cases b with
      | false =>
        have h1 := decodeUIntB_extract 1 "u8" e pre rest 0 (by norm_num)
        rw [toBytesOf_one e 0 (by norm_num)] at h1
        simp only [List.singleton_append] at h1
        simp [encodeValue, decodeTy, decodeBoolB, h1]
      | true =>
        have h1 := decodeUIntB_extract 1 "u8" e pre rest 1 (by norm_num)
        rw [toBytesOf_one e 1 (by norm_num)] at h1
        simp only [List.singleton_append] at h1
        simp [encodeValue, decodeTy, decodeBoolB, h1]
  | strV us =>
    cases t
    all_goals try (simp only [validV] at h; exact absurd h Bool.false_ne_true)
    case strT =>
      rw [validV, Bool.and_eq_true, Bool.and_eq_true] at h
      obtain ⟨⟨hlen, hall⟩, hwf⟩ := h
      rw [decide_eq_true_eq] at hlen
      simp only [encodeValue, List.append_assoc]
      have h1 := decodeUIntB_extract 8 "u64" e pre (encodeUnits e us ++ rest)
        us.length hlen
      have h2 := decodeUnits_extract e us hall (pre ++ toBytesOf e 8 us.length) rest
      simp only [List.append_assoc, List.length_append, toBytesOf_length] at h2
      simp [decodeTy, decodeUsizeB, h1, h2, hwf, List.length_append, toBytesOf_length]
      omega
  | seqV es =>
    cases t
    all_goals try (simp only [validV] at h; exact absurd h Bool.false_ne_true)
    case seqT t1 =>
      rw [validV, Bool.and_eq_true, decide_eq_true_eq] at h
      obtain ⟨hlen, helems⟩ := h
      simp only [encodeValue, List.append_assoc]
      have h1 := decodeUIntB_extract 8 "u64" e pre (encodeList e es ++ rest)
        es.length hlen
      have h2 := rtElems e t1 es helems (pre ++ toBytesOf e 8 es.length) rest
      simp only [List.append_assoc, List.length_append, toBytesOf_length] at h2
      simp [decodeTy, decodeUsizeB, h1, h2, List.length_append, toBytesOf_length]
      omega
  | tupV fs =>
    cases t
    all_goals try (simp only [validV] at h; exact absurd h Bool.false_ne_true)
    case tupT ts =>
      rw [validV] at h
      have h1 := rtFields e ts fs h pre rest
      simp only [encodeValue]
      simp [decodeTy, h1]
  | enumV idx p =>
    cases t
    all_goals try (simp only [validV] at h; exact absurd h Bool.false_ne_true)
    case enumT vs =>
      rw [validV, Bool.and_eq_true, decide_eq_true_eq] at h
      obtain ⟨hidx, hnth⟩ := h
      cases hn : vs.nth idx with
      | none => rw [hn] at hnth; simp at hnth
      | some ts =>
        rw [hn] at hnth
        simp only [encodeValue, List.append_assoc]
        have h1 := decodeUIntB_extract 8 "u64" e pre (encodeList e p ++ rest) idx hidx
        have h2 := rtFields e ts p hnth (pre ++ toBytesOf e 8 idx) rest
        simp only [List.append_assoc, List.length_append, toBytesOf_length] at h2
        simp only [decodeTy, decodeUsizeB, h1]
        split
        · rename_i hcontra
          rw [hn] at hcontra
          exact absurd hcontra (by simp)
        · rename_i ts2 hts2
          rw [hn] at hts2
          injection hts2 with hts2
          subst hts2
          rw [h2]
          simp [List.length_append, toBytesOf_length]
          omega
  | mapV en =>
    cases t
    all_goals try (simp only [validV] at h; exact absurd h Bool.false_ne_true)
    case mapT kt vt =>
      rw [validV, Bool.and_eq_true, Bool.and_eq_true, decide_eq_true_eq] at h
      obtain ⟨⟨hlen, hfresh⟩, hents⟩ := h
      simp only [encodeValue, List.append_assoc]
      have h1 := decodeUIntB_extract 8 "u64" e pre (encodeEntries e en ++ rest)
        en.length hlen
      have h2 := rtEntries e kt vt en hents (pre ++ toBytesOf e 8 en.length) rest
      simp only [List.append_assoc, List.length_append, toBytesOf_length] at h2
      simp [decodeTy, decodeUsizeB, h1, h2, mapRebuild_fresh en hfresh,
        List.length_append, toBytesOf_length]
      omega
termination_by sizeOf v

theorem rtElems (e : ByteEndian) (t : Ty) (es : ValueList)
    (h : validElems es t = true) (pre rest : List Nat) :
    decodeElems t es.length ⟨pre ++ (encodeList e es ++ rest), e, pre.length⟩ =
      .ok (es, ⟨pre ++ (encodeList e es ++ rest), e,
        pre.length + (encodeList e es).length⟩) := by
  cases es with
  | nil => simp [decodeElems, encodeList, ValueList.length]
  | cons v vs =>
    rw [validElems, Bool.and_eq_true] at h
    obtain ⟨hv, hvs⟩ := h
    simp only [encodeList, List.append_assoc, ValueList.length]
    have h1 := rtV e t v hv pre (encodeList e vs ++ rest)
    simp only [List.append_assoc] at h1
    have h2 := rtElems e t vs hvs (pre ++ encodeValue e v) rest
    simp only [List.append_assoc, List.length_append] at h2
    simp [decodeElems, h1, h2, List.length_append]
    omega
termination_by sizeOf es

theorem rtFields (e : ByteEndian) (ts : TyList) (fs : ValueList)
    (h : validFields fs ts = true) (pre rest : List Nat) :
    decodeFields ts ⟨pre ++ (encodeList e fs ++ rest), e, pre.length⟩ =
      .ok (fs, ⟨pre ++ (encodeList e fs ++ rest), e,
        pre.length + (encodeList e fs).length⟩) := by
  cases fs with
  | nil =>
    cases ts with
    | nil => simp [decodeFields, encodeList]
    | cons t2 ts2 => exact absurd h (by simp [validFields])
  | cons v vs =>
    cases ts with
    | nil => exact absurd h (by simp [validFields])
    | cons t2 ts2 =>
      rw [validFields, Bool.and_eq_true] at h
      obtain ⟨hv, hvs⟩ := h
      simp only [encodeList, List.append_assoc]
      have h1 := rtV e t2 v hv pre (encodeList e vs ++ rest)
      simp only [List.append_assoc] at h1
      have h2 := rtFields e ts2 vs hvs (pre ++ encodeValue e v) rest
      simp only [List.append_assoc, List.length_append] at h2
      simp [decodeFields, h1, h2, List.length_append]
      omega
termination_by sizeOf fs

theorem rtEntries (e : ByteEndian) (kt vt : Ty) (en : EntryList)
    (h : validEntries en kt vt = true) (pre rest : List Nat) :
    decodeEntriesN kt vt en.length ⟨pre ++ (encodeEntries e en ++ rest), e, pre.length⟩ =
      .ok (en, ⟨pre ++ (encodeEntries e en ++ rest), e,
        pre.length + (encodeEntries e en).length⟩) := by
  cases en with
  | nil => simp [decodeEntriesN, encodeEntries, EntryList.length]
  | cons k v r =>
    rw [validEntries, Bool.and_eq_true, Bool.and_eq_true] at h
    obtain ⟨⟨hk, hv⟩, hr⟩ := h
    simp only [encodeEntries, List.append_assoc, EntryList.length]
    have h1 := rtV e kt k hk pre (encodeValue e v ++ (encodeEntries e r ++ rest))
    simp only [List.append_assoc] at h1
    have h2 := rtV e vt v hv (pre ++ encodeValue e k) (encodeEntries e r ++ rest)
    simp only [List.append_assoc, List.length_append] at h2
    have h3 := rtEntries e kt vt r hr (pre ++ encodeValue e k ++ encodeValue e v) rest
    simp only [List.append_assoc, List.length_append] at h3
    rw [← Nat.add_assoc] at h3
    simp [decodeEntriesN, h1, h2, h3, List.length_append]
    omega
termination_by sizeOf en

end

/- ===== Truncation: prefix decomposition helpers ===== -/

theorem splitAtChunk (p q A B : List Nat) (h : p ++ q = A ++ B)
    (hlen : A.length ≤ p.length) :
    p = A ++ p.drop A.length ∧ p.drop A.length ++ q = B := by
  have htake : p.take A.length = A := by
    have h1 : (p ++ q).take A.length = p.take A.length :=
      List.take_append_of_le_length hlen
    have h2 : (A ++ B).take A.length = A := List.take_left A B
    rw [← h1, h, h2]
  constructor
  · conv_lhs => rw [← List.take_append_drop A.length p]
    rw [htake]
  · have hp : p = A ++ p.drop A.length := by
      conv_lhs => rw [← List.take_append_drop A.length p]
      rw [htake]
    rw [hp, List.append_assoc] at h
    exact List.append_cancel_left h

theorem split_strict (p q : List Nat) (A B : List Nat) (h : p ++ q = A ++ B)
    (hlt : p.length < A.length) :
    p ++ A.drop p.length = A ∧ A.drop p.length ≠ [] := by
  have htake : p = A.take p.length := by
    have h1 : (p ++ q).take p.length = p := by
      rw [List.take_append_of_le_length (le_refl _), List.take_length]
    rw [h, List.take_append_of_le_length (le_of_lt hlt)] at h1
    exact h1.symm
  constructor
  · have hx : A.take p.length ++ A.drop p.length = A := List.take_append_drop _ _
    rw [← htake] at hx
    exact hx
  · have : (A.drop p.length).length = A.length - p.length := List.length_drop _ _
    intro hcon
    rw [hcon] at this
    simp at this
    omega

theorem append_eq_nil_right (p q : List Nat) (h : p ++ q = []) : q = [] := by
  cases p <;> simp_all

/-- Truncating the u16 unit run of a string loses at least one byte:
the element loop fails with `NotEnoughBytes`. -/
theorem truncUnits (e : ByteEndian) (us : List Nat)
    (hall : us.all (fun u => decide (u < 256 ^ 2)) = true)
    (pre p q : List Nat) (hpq : p ++ q = encodeUnits e us) (hq : q ≠ []) :
    ∃ i, decodeUnits us.length ⟨pre ++ p, e, pre.length⟩ =
      .error (.NotEnoughBytes "u16" i) := by
  cases us with
  | nil =>
    rw [encodeUnits] at hpq
    exact absurd (append_eq_nil_right p q hpq) hq
  | cons u us =>
    simp only [List.all_cons, Bool.and_eq_true, decide_eq_true_eq] at hall
    obtain ⟨hu, hus⟩ := hall
    rw [encodeUnits] at hpq
    rcases Nat.lt_or_ge p.length 2 with hlt | hge
    · refine ⟨pre.length, ?_⟩
      have hfail := decodeUIntB_fail 2 "u16" e pre p hlt
      simp [decodeUnits, hfail, List.length_cons]
    · have hA : (toBytesOf e 2 u).length ≤ p.length := by
        rw [toBytesOf_length]; exact hge
      obtain ⟨hp, hrest⟩ := splitAtChunk p q _ _ hpq hA
      rw [toBytesOf_length] at hp hrest
      have hstep := decodeUIntB_extract 2 "u16" e pre (p.drop 2) u hu
      obtain ⟨i, ih⟩ := truncUnits e us (by simpa using hus)
        (pre ++ toBytesOf e 2 u) (p.drop 2) q hrest hq
      refine ⟨i, ?_⟩
      rw [hp]
      simp only [List.append_assoc] at hstep ih ⊢
      simp only [List.length_append, toBytesOf_length] at ih
      simp [decodeUnits, hstep, ih, List.length_cons]

/- ===== Truncation safety: a strict prefix of an encoding fails with
NotEnoughBytes ===== -/

mutual

theorem truncV (e : ByteEndian) (t : Ty) (v : Value) (h : validV v t = true)
    (pre p q : List Nat) (hpq : p ++ q = encodeValue e v) (hq : q ≠ []) :
    ∃ nm i, decodeTy t ⟨pre ++ p, e, pre.length⟩ =
      .error (.NotEnoughBytes nm i) := by
  cases v with
  | uintV w n =>
    cases t
    all_goals try (simp only [validV] at h; exact absurd h Bool.false_ne_true)
    case uintT w2 =>
      rw [validV, Bool.and_eq_true, beq_iff_eq, decide_eq_true_eq] at h
      obtain ⟨hw, _⟩ := h
      subst hw
      rw [encodeValue] at hpq
      have hlt : p.length < w := by
        have hlen := congrArg List.length hpq
        simp only [List.length_append, toBytesOf_length] at hlen
        cases q with
        | nil => exact absurd rfl hq
        | cons a as => simp only [List.length_cons] at hlen; omega
      exact ⟨"uint", pre.length,
        by simp [decodeTy, decodeUIntB_fail w "uint" e pre p hlt]⟩
  | sintV w n =>
    cases t
    all_goals try (simp only [validV] at h; exact absurd h Bool.false_ne_true)
    case sintT w2 =>
      rw [validV, Bool.and_eq_true, Bool.and_eq_true, Bool.and_eq_true,
        beq_iff_eq] at h
      obtain ⟨⟨⟨hw, _⟩, _⟩, _⟩ := h
      subst hw
      rw [encodeValue] at hpq
      have hlt : p.length < w := by
        have hlen := congrArg List.length hpq
        simp only [List.length_append, toBytesOf_length] at hlen
        cases q with
        | nil => exact absurd rfl hq
        | cons a as => simp only [List.length_cons] at hlen; omega
      exact ⟨"sint", pre.length,
        by simp [decodeTy, decodeSIntB_fail w "sint" e pre p hlt]⟩
  | boolV b =>
    cases t
    all_goals try (simp only [validV] at h; exact absurd h Bool.false_ne_true)
    case boolT =>
      rw [encodeValue] at hpq
      have hlt : p.length < 1 := by
        have hlen := congrArg List.length hpq
        simp only [List.length_append, List.length_cons, List.length_nil] at hlen
        cases q with
        | nil => exact absurd rfl hq
        | cons a as => simp only [List.length_cons] at hlen; omega
      exact ⟨"u8", pre.length,
        by simp [decodeTy, decodeBoolB, decodeUIntB_fail 1 "u8" e pre p hlt]⟩
  | strV us =>
    cases t
    all_goals try (simp only [validV] at h; exact absurd h Bool.false_ne_true)
    case strT =>
      rw [validV, Bool.and_eq_true, Bool.and_eq_true] at h
      obtain ⟨⟨hlen, hall⟩, _⟩ := h
      rw [decide_eq_true_eq] at hlen
      rw [encodeValue] at hpq
      rcases Nat.lt_or_ge p.length 8 with hlt | hge
      · refine ⟨"u64", pre.length, ?_⟩
        simp [decodeTy, decodeUsizeB, decodeUIntB_fail 8 "u64" e pre p hlt]
      · have hA : (toBytesOf e 8 us.length).length ≤ p.length := by
          rw [toBytesOf_length]; exact hge
        obtain ⟨hp, hrest⟩ := splitAtChunk p q _ _ hpq hA
        rw [toBytesOf_length] at hp hrest
        have hstep := decodeUIntB_extract 8 "u64" e pre (p.drop 8) us.length hlen
        obtain ⟨i, ih⟩ := truncUnits e us hall
          (pre ++ toBytesOf e 8 us.length) (p.drop 8) q hrest hq
        refine ⟨"u16", i, ?_⟩
        rw [hp]
        simp only [List.append_assoc] at hstep ih ⊢
        simp only [List.length_append, toBytesOf_length] at ih
        simp [decodeTy, decodeUsizeB, hstep, ih]
  | seqV es =>
    cases t
    all_goals try (simp only [validV] at h; exact absurd h Bool.false_ne_true)
    case seqT t1 =>
      rw [validV, Bool.and_eq_true, decide_eq_true_eq] at h
      obtain ⟨hlen, helems⟩ := h
      rw [encodeValue] at hpq
      rcases Nat.lt_or_ge p.length 8 with hlt | hge
      · refine ⟨"u64", pre.length, ?_⟩
        simp [decodeTy, decodeUsizeB, decodeUIntB_fail 8 "u64" e pre p hlt]
      · have hA : (toBytesOf e 8 es.length).length ≤ p.length := by
          rw [toBytesOf_length]; exact hge
        obtain ⟨hp, hrest⟩ := splitAtChunk p q _ _ hpq hA
        rw [toBytesOf_length] at hp hrest
        have hstep := decodeUIntB_extract 8 "u64" e pre (p.drop 8) es.length hlen
        obtain ⟨nm, i, ih⟩ := truncElems e t1 es helems
          (pre ++ toBytesOf e 8 es.length) (p.drop 8) q hrest hq
        refine ⟨nm, i, ?_⟩
        rw [hp]
        simp only [List.append_assoc] at hstep ih ⊢
        simp only [List.length_append, toBytesOf_length] at ih
        simp [decodeTy, decodeUsizeB, hstep, ih]
  | tupV fs =>
    cases t
    all_goals try (simp only [validV] at h; exact absurd h Bool.false_ne_true)
    case tupT ts =>
      rw [validV] at h
      rw [encodeValue] at hpq
      obtain ⟨nm, i, ih⟩ := truncFields e ts fs h pre p q hpq hq
      exact ⟨nm, i, by simp [decodeTy, ih]⟩
  | enumV idx pl =>
    cases t
    all_goals try (simp only [validV] at h; exact absurd h Bool.false_ne_true)
    case enumT vs =>
      rw [validV, Bool.and_eq_true, decide_eq_true_eq] at h
      obtain ⟨hidx, hnth⟩ := h
      cases hn : vs.nth idx with
      | none => rw [hn] at hnth; simp at hnth
      | some ts =>
        rw [hn] at hnth
        rw [encodeValue] at hpq
        rcases Nat.lt_or_ge p.length 8 with hlt | hge
        · refine ⟨"u64", pre.length, ?_⟩
          simp [decodeTy, decodeUsizeB, decodeUIntB_fail 8 "u64" e pre p hlt]
        · have hA : (toBytesOf e 8 idx).length ≤ p.length := by
            rw [toBytesOf_length]; exact hge
          obtain ⟨hp, hrest⟩ := splitAtChunk p q _ _ hpq hA
          rw [toBytesOf_length] at hp hrest
          have hstep := decodeUIntB_extract 8 "u64" e pre (p.drop 8) idx hidx
          obtain ⟨nm, i, ih⟩ := truncFields e ts pl hnth
            (pre ++ toBytesOf e 8 idx) (p.drop 8) q hrest hq
          refine ⟨nm, i, ?_⟩
          rw [hp]
          simp only [List.append_assoc] at hstep ih ⊢
          simp only [List.length_append, toBytesOf_length] at ih
          simp only [decodeTy, decodeUsizeB, hstep]
          split
          · rename_i hcontra
            rw [hn] at hcontra
            exact absurd hcontra (by simp)
          · rename_i ts2 hts2
            rw [hn] at hts2
            injection hts2 with hts2
            subst hts2
            rw [ih]
  | mapV en =>
    cases t
    all_goals try (simp only [validV] at h; exact absurd h Bool.false_ne_true)
    case mapT kt vt =>
      rw [validV, Bool.and_eq_true, Bool.and_eq_true, decide_eq_true_eq] at h
      obtain ⟨⟨hlen, _⟩, hents⟩ := h
      rw [encodeValue] at hpq
      rcases Nat.lt_or_ge p.length 8 with hlt | hge
      · refine ⟨"u64", pre.length, ?_⟩
        simp [decodeTy, decodeUsizeB, decodeUIntB_fail 8 "u64" e pre p hlt]
      · have hA : (toBytesOf e 8 en.length).length ≤ p.length := by
          rw [toBytesOf_length]; exact hge
        obtain ⟨hp, hrest⟩ := splitAtChunk p q _ _ hpq hA
        rw [toBytesOf_length] at hp hrest
        have hstep := decodeUIntB_extract 8 "u64" e pre (p.drop 8) en.length hlen
        obtain ⟨nm, i, ih⟩ := truncEntries e kt vt en hents
          (pre ++ toBytesOf e 8 en.length) (p.drop 8) q hrest hq
        refine ⟨nm, i, ?_⟩
        rw [hp]
        simp only [List.append_assoc] at hstep ih ⊢
        simp only [List.length_append, toBytesOf_length] at ih
        simp [decodeTy, decodeUsizeB, hstep, ih]
termination_by sizeOf v

theorem truncElems (e : ByteEndian) (t : Ty) (es : ValueList)
    (h : validElems es t = true) (pre p q : List Nat)
    (hpq : p ++ q = encodeList e es) (hq : q ≠ []) :
    ∃ nm i, decodeElems t es.length ⟨pre ++ p, e, pre.length⟩ =
      .error (.NotEnoughBytes nm i) := by
  cases es with
  | nil =>
    rw [encodeList] at hpq
    exact absurd (append_eq_nil_right p q hpq) hq
  | cons v vs =>
    rw [validElems, Bool.and_eq_true] at h
    obtain ⟨hv, hvs⟩ := h
    rw [encodeList] at hpq
    rcases Nat.lt_or_ge p.length (encodeValue e v).length with hlt | hge
    · obtain ⟨hsplit, hne⟩ := split_strict p q _ _ hpq hlt
      obtain ⟨nm, i, herr⟩ := truncV e t v hv pre p
        ((encodeValue e v).drop p.length) hsplit hne
      refine ⟨nm, i, ?_⟩
      simp [decodeElems, ValueList.length, herr]
    · obtain ⟨hp, hrest⟩ := splitAtChunk p q _ _ hpq hge
      have hstep := rtV e t v hv pre (p.drop (encodeValue e v).length)
      obtain ⟨nm, i, ih⟩ := truncElems e t vs hvs (pre ++ encodeValue e v)
        (p.drop (encodeValue e v).length) q hrest hq
      refine ⟨nm, i, ?_⟩
      rw [hp]
      simp only [List.append_assoc] at hstep ih ⊢
      simp only [List.length_append] at ih
      simp [decodeElems, ValueList.length, hstep, ih]
termination_by sizeOf es

theorem truncFields (e : ByteEndian) (ts : TyList) (fs : ValueList)
    (h : validFields fs ts = true) (pre p q : List Nat)
    (hpq : p ++ q = encodeList e fs) (hq : q ≠ []) :
    ∃ nm i, decodeFields ts ⟨pre ++ p, e, pre.length⟩ =
      .error (.NotEnoughBytes nm i) := by
  cases fs with
  | nil =>
    cases ts with
    | nil =>
      rw [encodeList] at hpq
      exact absurd (append_eq_nil_right p q hpq) hq
    | cons t2 ts2 => exact absurd h (by simp [validFields])
  | cons v vs =>
    cases ts with
    | nil => exact absurd h (by simp [validFields])
    | cons t2 ts2 =>
      rw [validFields, Bool.and_eq_true] at h
      obtain ⟨hv, hvs⟩ := h
      rw [encodeList] at hpq
      rcases Nat.lt_or_ge p.length (encodeValue e v).length with hlt | hge
      · obtain ⟨hsplit, hne⟩ := split_strict p q _ _ hpq hlt
        obtain ⟨nm, i, herr⟩ := truncV e t2 v hv pre p
          ((encodeValue e v).drop p.length) hsplit hne
        refine ⟨nm, i, ?_⟩
        simp [decodeFields, herr]
      · obtain ⟨hp, hrest⟩ := splitAtChunk p q _ _ hpq hge
        have hstep := rtV e t2 v hv pre (p.drop (encodeValue e v).length)
        obtain ⟨nm, i, ih⟩ := truncFields e ts2 vs hvs (pre ++ encodeValue e v)
          (p.drop (encodeValue e v).length) q hrest hq
        refine ⟨nm, i, ?_⟩
        rw [hp]
        simp only [List.append_assoc] at hstep ih ⊢
        simp only [List.length_append] at ih
        simp [decodeFields, hstep, ih]
termination_by sizeOf fs

theorem truncEntries (e : ByteEndian) (kt vt : Ty) (en : EntryList)
    (h : validEntries en kt vt = true) (pre p q : List Nat)
    (hpq : p ++ q = encodeEntries e en) (hq : q ≠ []) :
    ∃ nm i, decodeEntriesN kt vt en.length ⟨pre ++ p, e, pre.length⟩ =
      .error (.NotEnoughBytes nm i) := by
  cases en with
  | nil =>
    rw [encodeEntries] at hpq
    exact absurd (append_eq_nil_right p q hpq) hq
  | cons k v r =>
    rw [validEntries, Bool.and_eq_true, Bool.and_eq_true] at h
    obtain ⟨⟨hk, hv⟩, hr⟩ := h
    rw [encodeEntries] at hpq
    rcases Nat.lt_or_ge p.length (encodeValue e k).length with hlt | hge
    · obtain ⟨hsplit, hne⟩ := split_strict p q _ _ hpq hlt
      obtain ⟨nm, i, herr⟩ := truncV e kt k hk pre p
        ((encodeValue e k).drop p.length) hsplit hne
      refine ⟨nm, i, ?_⟩
      simp [decodeEntriesN, EntryList.length, herr]
    · obtain ⟨hp, hrest⟩ := splitAtChunk p q _ _ hpq hge
      have hstep1 := rtV e kt k hk pre (p.drop (encodeValue e k).length)
      rcases Nat.lt_or_ge (p.drop (encodeValue e k).length).length
          (encodeValue e v).length with hlt2 | hge2
      · obtain ⟨hsplit2, hne2⟩ := split_strict _ q _ _ hrest hlt2
        obtain ⟨nm, i, herr2⟩ := truncV e vt v hv (pre ++ encodeValue e k)
          (p.drop (encodeValue e k).length)
          ((encodeValue e v).drop (p.drop (encodeValue e k).length).length)
          hsplit2 hne2
        refine ⟨nm, i, ?_⟩
        rw [hp]
        simp only [List.append_assoc] at hstep1 herr2 ⊢
        simp only [List.length_append] at herr2
        simp [decodeEntriesN, EntryList.length, hstep1, herr2]
      · obtain ⟨hp2, hrest2⟩ := splitAtChunk _ q _ _ hrest hge2
        have hstep2 := rtV e vt v hv (pre ++ encodeValue e k)
          ((p.drop (encodeValue e k).length).drop (encodeValue e v).length)
        obtain ⟨nm, i, ih⟩ := truncEntries e kt vt r hr
          (pre ++ encodeValue e k ++ encodeValue e v)
          ((p.drop (encodeValue e k).length).drop (encodeValue e v).length)
          q hrest2 hq
        refine ⟨nm, i, ?_⟩
        rw [hp2] at hstep1
        rw [hp, hp2]
        simp only [List.append_assoc] at hstep1 hstep2 ih ⊢
        simp only [List.length_append] at hstep2 ih
        rw [← Nat.add_assoc] at ih
        simp only [decodeEntriesN, EntryList.length, hstep1, hstep2, ih]
termination_by sizeOf en

end

/- ===== v2 byte decoder (src/src/v2/decoder.rs) and its fast path ===== -/

/-- `v2::ByteDecoder` (src/src/v2/decoder.rs:101-105). -/
structure V2Decoder where
  bytes : List Nat
  endian : ByteEndian
  index : Nat
deriving Repr

/-- `v2::ByteDecoder::read_bytes` (src/src/v2/decoder.rs:114-124). -/
def v2ReadBytes (sz : Nat) (tyName : String) (d : V2Decoder) :
    Except DecoderError (List Nat × V2Decoder) :=
  if d.index + sz ≤ d.bytes.length then
    .ok ((d.bytes.drop d.index).take sz, { d with index := d.index + sz })
  else
    .error (.NotEnoughBytes tyName d.index)

/-- A v2 unsigned scalar decode of width `w`: the v2 `ByteDecoder`
always converts with `from_le_bytes` (src/src/v2/decoder.rs:128-141),
ignoring its stored endianness. -/
def v2DecodeUInt (w : Nat) (nm : String) (d : V2Decoder) :
    Except DecoderError (Nat × V2Decoder) :=
  match v2ReadBytes w nm d with
  | .ok (bs, d1) => .ok (fromLE bs, d1)
  | .error er => .error er

/-- The naive element-wise loop of `v2::decode_slice`
(src/src/v2/decoder.rs:167-169) for a primitive scalar element of
width `w`. -/
def v2ElemLoop (w : Nat) (nm : String) : Nat → V2Decoder →
    Except DecoderError (List Nat × V2Decoder)
  | 0, d => .ok ([], d)
  | n + 1, d =>
    match v2DecodeUInt w nm d with
    | .error er => .error er
    | .ok (u, d1) =>
      match v2ElemLoop w nm n d1 with
      | .error er => .error er
      | .ok (us, d2) => .ok (u :: us, d2)

/-- `v2::ByteDecoder::decode_slice` (src/src/v2/decoder.rs:143-172) for
a primitive scalar element of width `w`: read the length, run the
up-front bounds check, then always the element-wise loop — the
zero-copy branch is present only as disabled (commented-out) code. -/
def v2DecodeSlicePrim (w : Nat) (nm : String) (d : V2Decoder) :
    Except DecoderError (List Nat × V2Decoder) :=
  match v2DecodeUInt 8 "u64" d with
  | .error er => .error er
  | .ok (len, d1) =>
    if d1.index + len * w > d1.bytes.length then
      .error (.NotEnoughBytes nm d1.index)
    else
      v2ElemLoop w nm len d1

/-- The zero-copy bulk decode.  Modelled from the spec (§4.3) and the
disabled block at src/src/v2/decoder.rs:154-165: reinterpret the raw
input byte block of `len * w` bytes starting at `begin` as `len`
consecutive native-order (little-endian host) values. -/
def v2BulkDecode (w : Nat) : Nat → List Nat → Nat → List Nat
  | 0, _, _ => []
  | n + 1, bytes, begin =>
    fromLE ((bytes.drop begin).take w) :: v2BulkDecode w n bytes (begin + w)

theorem v2ReadBytes_ok (sz : Nat) (nm : String) (d : V2Decoder)
    (h : d.index + sz ≤ d.bytes.length) :
    v2ReadBytes sz nm d =
      .ok ((d.bytes.drop d.index).take sz, { d with index := d.index + sz }) := by
  simp [v2ReadBytes, h]

/-- The naive loop produces exactly the bulk-reinterpretation output
whenever the block is in bounds. -/
theorem v2ElemLoop_bulk (w : Nat) (nm : String) (hw : 0 < w)
    (len : Nat) (d : V2Decoder) (h : d.index + len * w ≤ d.bytes.length) :
    v2ElemLoop w nm len d =
      .ok (v2BulkDecode w len d.bytes d.index,
        { d with index := d.index + len * w }) := by
  induction len generalizing d with
  | zero => simp [v2ElemLoop, v2BulkDecode]
  | succ n ih =>
    have h1 : d.index + w ≤ d.bytes.length := by
      have : w ≤ (n + 1) * w := by
        calc w = 1 * w := (one_mul w).symm
          _ ≤ (n + 1) * w := Nat.mul_le_mul_right w (by omega)
      omega
    have hread := v2ReadBytes_ok w nm d h1
    have ihx := ih { d with index := d.index + w } (by simp; calc
      d.index + w + n * w = d.index + (n + 1) * w := by ring
      _ ≤ d.bytes.length := h)
    simp only at ihx
    simp [v2ElemLoop, v2DecodeUInt, hread, ihx, v2BulkDecode]
    ring

/- ===== Entry points and remaining source-level helpers ===== -/

theorem TyVariants.nth_none (vs : TyVariants) (i : Nat) (h : vs.count ≤ i) :
    vs.nth i = none := by
  cases vs with
  | nil => rfl
  | cons fields rest =>
    cases i with
    | zero => simp [TyVariants.count] at h
    | succ n =>
      rw [TyVariants.nth]
      exact TyVariants.nth_none rest n (by
        rw [TyVariants.count] at h
        omega)

/-- `MapEntry::encode` (src/src/common.rs:116-121 and
binary_serializer/src/common.rs:78-83): the key's encoding immediately
followed by the value's. -/
def encodeMapEntry (e : ByteEndian) (k v : Value) : List Nat :=
  encodeValue e k ++ encodeValue e v

/-- `MapEntry::decode` (src/src/common.rs:123-127 and
binary_serializer/src/common.rs:85-89): decode the key first, then the
value. -/
def decodeMapEntry (kt vt : Ty) (d : ByteDecoder) :
    Except DecoderError ((Value × Value) × ByteDecoder) :=
  match decodeTy kt d with
  | .error er => .error er
  | .ok (k, d1) =>
    match decodeTy vt d1 with
    | .error er => .error er
    | .ok (v, d2) => .ok ((k, v), d2)

/-- The `as usize` / `as isize` narrowing-or-widening cast on a host
whose pointers are `ptrW` bytes wide (`decode_usize`,
src/src/decoder.rs:51). -/
def usizeCast (ptrW : Nat) (x : Nat) : Nat := x % 2 ^ (8 * ptrW)

/- Concrete sample data for witnesses: the crate's own round-trip test
value `Data { text: "Text", number: 69u32, list: vec![4, 2, 0] }`
(binary_serializer/src/lib.rs:26-30). -/

def dataTy : Ty :=
  .tupT (.cons .strT (.cons (.uintT 4) (.cons (.seqT (.uintT 1)) .nil)))

def dataValue : Value :=
  .tupV (.cons (.strV [84, 101, 120, 116])
    (.cons (.uintV 4 69)
      (.cons (.seqV (.cons (.uintV 1 4) (.cons (.uintV 1 2) (.cons (.uintV 1 0) .nil))))
        .nil)))

/- ===== Claim theorems ===== -/

/-- C1: for every supported value `v` (scalar primitives, strings,
sequences, maps, tuples, derived structs/enums) and every endianness
`e`, decoding the bytes produced by encoding `v` under `e`, again
under `e`, yields a value equal to `v`. -/
theorem c1_round_trip (e : ByteEndian) (t : Ty) (v : Value)
    (h : validV v t = true) :
    fromBytesM t (toBytesM v e) e = .ok v := by
  have hx := rtV e t v h [] []
  simp only [List.nil_append, List.append_nil, List.length_nil] at hx
  simp [fromBytesM, toBytesM, hx]

/-- C1 witness: the crate's own test struct round-trips little-endian. -/
theorem c1_round_trip_witness :
    validV dataValue dataTy = true ∧
    fromBytesM dataTy (toBytesM dataValue .Little) .Little = .ok dataValue :=
  ⟨by decide, c1_round_trip .Little dataTy dataValue (by decide)⟩

/-- C2: `encode_slice` writes exactly one count prefix (the element
count in the portable 8-byte usize form) followed by each element's
encoding in element order; `decode_slice` reads that single count,
returns exactly that many elements decoded in order (the successful
decode of an encoded slice is the original element list), and
propagates the first element failure immediately. -/
theorem c2_slice_wire_format (e : ByteEndian) (t : Ty) (es : ValueList)
    (h : validElems es t = true) (hlen : es.length < 256 ^ 8) :
    encodeValue e (.seqV es) = toBytesOf e 8 es.length ++ encodeList e es ∧
    (toBytesOf e 8 es.length).length = 8 ∧
    (∀ v rest, encodeList e (.cons v rest) =
      encodeValue e v ++ encodeList e rest) ∧
    fromBytesM (.seqT t) (encodeValue e (.seqV es)) e = .ok (.seqV es) ∧
    (∀ d er n, decodeTy t d = .error er → decodeElems t (n + 1) d = .error er) := by
  refine ⟨rfl, toBytesOf_length e 8 es.length, fun v rest => rfl, ?_, ?_⟩
  · have hx := rtV e (.seqT t) (.seqV es)
      (by rw [validV, Bool.and_eq_true, decide_eq_true_eq]; exact ⟨hlen, h⟩) [] []
    simp only [List.nil_append, List.append_nil, List.length_nil] at hx
    simp [fromBytesM, hx]
  · intro d er n herr
    simp [decodeElems, herr]

/-- C2 witness: the list `[4, 2, 0]` of u8 under big endianness. -/
theorem c2_slice_wire_format_witness :
    (validElems (.cons (.uintV 1 4) (.cons (.uintV 1 2) (.cons (.uintV 1 0) .nil)))
        (.uintT 1) = true ∧
      ValueList.length (.cons (.uintV 1 4) (.cons (.uintV 1 2) (.cons (.uintV 1 0) .nil)))
        < 256 ^ 8) ∧
    fromBytesM (.seqT (.uintT 1))
      (encodeValue .Big (.seqV (.cons (.uintV 1 4)
        (.cons (.uintV 1 2) (.cons (.uintV 1 0) .nil))))) .Big =
      .ok (.seqV (.cons (.uintV 1 4) (.cons (.uintV 1 2) (.cons (.uintV 1 0) .nil)))) :=
  ⟨⟨by decide, by decide⟩,
    (c2_slice_wire_format .Big (.uintT 1)
      (.cons (.uintV 1 4) (.cons (.uintV 1 2) (.cons (.uintV 1 0) .nil)))
      (by decide) (by decide)).2.2.2.1⟩

/-- C3: for every multi-byte scalar and both endiannesses, encoding
under `E` appends exactly the value's `E`-ordered byte representation
(the big-endian form being the byte reversal of the little-endian
form), and decoding under `E` interprets the next bytes back through
the same `E`-ordered conversion; the byte order is a function of the
endianness parameter alone, never of the data. -/
theorem c3_scalar_endianness (e : ByteEndian) (w v : Nat) (hv : v < 256 ^ w)
    (st : ByteEncoderE) (hst : st.endian = e) (pre rest : List Nat) :
    (encodeUIntE w v st).bytes = st.bytes ++ toBytesOf e w v ∧
    toBytesOf .Big w v = (toBytesOf .Little w v).reverse ∧
    fromBytesOf e (toBytesOf e w v) = v ∧
    decodeUIntB w "uint" ⟨pre ++ (toBytesOf e w v ++ rest), e, pre.length⟩ =
      .ok (v, ⟨pre ++ (toBytesOf e w v ++ rest), e, pre.length + w⟩) := by
  refine ⟨?_, ?_, fromBytesOf_toBytesOf e w v hv,
    decodeUIntB_extract w "uint" e pre rest v hv⟩
  · simp [encodeUIntE, hst]
  · simp [toBytesOf]

/-- C3 witness: the u32 `0x01020304` under big endianness. -/
theorem c3_scalar_endianness_witness :
    (16909060 < 256 ^ 4) ∧
    (encodeUIntE 4 16909060 ⟨[], .Big⟩).bytes = ([] : List Nat) ++ toBytesOf .Big 4 16909060 ∧
    toBytesOf .Big 4 16909060 = (toBytesOf .Little 4 16909060).reverse ∧
    fromBytesOf .Big (toBytesOf .Big 4 16909060) = 16909060 ∧
    decodeUIntB 4 "uint"
        ⟨([] : List Nat) ++ (toBytesOf .Big 4 16909060 ++ ([] : List Nat)), .Big,
          List.length ([] : List Nat)⟩ =
      .ok (16909060,
        ⟨([] : List Nat) ++ (toBytesOf .Big 4 16909060 ++ ([] : List Nat)), .Big,
          List.length ([] : List Nat) + 4⟩) :=
  ⟨by decide, c3_scalar_endianness .Big 4 16909060 (by decide) ⟨[], .Big⟩ rfl [] []⟩

/-- C4: decoding an enum from a buffer whose leading variant index is
at or beyond the declared variant count fails with the
invalid-enum-variant error (the derive macro's
`DecoderError::custom("Invalid Enum")`), a member of the closed error
taxonomy distinct from `NotEnoughBytes` and from `InvalidUTF16`. -/
theorem c4_invalid_enum_variant (e : ByteEndian) (vs : TyVariants) (idx : Nat)
    (hidx : idx < 256 ^ 8) (hge : vs.count ≤ idx) (pre rest : List Nat) :
    decodeTy (.enumT vs) ⟨pre ++ (toBytesOf e 8 idx ++ rest), e, pre.length⟩ =
      .error (.Custom "Invalid Enum") ∧
    (∀ nm i, (DecoderError.Custom "Invalid Enum") ≠ .NotEnoughBytes nm i) ∧
    (DecoderError.Custom "Invalid Enum") ≠ .InvalidUTF16 := by
  refine ⟨?_, fun nm i => by simp, by simp⟩
  have hstep := decodeUIntB_extract 8 "u64" e pre rest idx hidx
  have hnone := TyVariants.nth_none vs idx hge
  simp only [decodeTy, decodeUsizeB, hstep]
  split
  · rfl
  · rename_i ts2 hts2
    rw [hnone] at hts2
    exact absurd hts2 (by simp)

/-- C4 witness: a two-variant enum with wire index 5. -/
theorem c4_invalid_enum_variant_witness :
    (5 < 256 ^ 8 ∧ TyVariants.count (.cons .nil (.cons (.cons (.uintT 4) .nil) .nil)) ≤ 5) ∧
    decodeTy (.enumT (.cons .nil (.cons (.cons (.uintT 4) .nil) .nil)))
        ⟨([] : List Nat) ++ (toBytesOf .Little 8 5 ++ ([] : List Nat)), .Little,
          List.length ([] : List Nat)⟩ =
      .error (.Custom "Invalid Enum") :=
  ⟨⟨by decide, by decide⟩,
    (c4_invalid_enum_variant .Little (.cons .nil (.cons (.cons (.uintT 4) .nil) .nil))
      5 (by decide) (by decide) [] []).1⟩

/-- C5: for a decoder with cursor `c` and buffer length `L`
(`0 ≤ c ≤ L`) and a scalar read of wire width `w`: if `c + w > L` the
read returns `NotEnoughBytes` carrying the attempted type's name and
the index `c` and leaves the cursor unchanged; if `c + w ≤ L` it
consumes exactly `w` bytes, advancing the cursor to exactly `c + w`,
and the scalar decode converts them per the active endianness; in both
outcomes `0 ≤ cursor ≤ L` still holds. -/
theorem c5_scalar_decode_cursor (d : ByteDecoder) (w : Nat) (nm : String)
    (hinv : d.index ≤ d.bytes.length) :
    (d.index + w > d.bytes.length →
      readBytesSt w nm d = (.error (.NotEnoughBytes nm d.index), d)) ∧
    (d.index + w ≤ d.bytes.length →
      readBytesSt w nm d =
        (.ok ((d.bytes.drop d.index).take w), { d with index := d.index + w }) ∧
      ((d.bytes.drop d.index).take w).length = w ∧
      decodeUIntB w nm d =
        .ok (fromBytesOf d.endian ((d.bytes.drop d.index).take w),
          { d with index := d.index + w })) ∧
    (readBytesSt w nm d).2.index ≤ (readBytesSt w nm d).2.bytes.length := by
  refine ⟨?_, ?_, ?_⟩
  · intro hgt
    rw [readBytesSt, if_neg (by omega)]
  · intro hle
    refine ⟨by rw [readBytesSt, if_pos hle], ?_, ?_⟩
    · rw [List.length_take, List.length_drop]
      omega
    · rw [decodeUIntB, readBytes, readBytesSt, if_pos hle]
  · rw [readBytesSt]
    split
    · simpa using (by omega : d.index + w ≤ d.bytes.length)
    · simpa using hinv

/-- C5 witness: a 4-byte read against a 6-byte buffer at cursor 4
(failing) and at cursor 0 (succeeding) both respect the contract; here
the failing side at cursor 4. -/
theorem c5_scalar_decode_cursor_witness :
    (4 ≤ ([1, 2, 3, 4, 5, 6] : List Nat).length) ∧
    (ByteDecoder.index ⟨[1, 2, 3, 4, 5, 6], .Little, 4⟩ + 4 >
        ([1, 2, 3, 4, 5, 6] : List Nat).length →
      readBytesSt 4 "u32" ⟨[1, 2, 3, 4, 5, 6], .Little, 4⟩ =
        (.error (.NotEnoughBytes "u32" 4), ⟨[1, 2, 3, 4, 5, 6], .Little, 4⟩)) :=
  ⟨by decide, (c5_scalar_decode_cursor ⟨[1, 2, 3, 4, 5, 6], .Little, 4⟩ 4 "u32"
    (by decide)).1⟩

/-- C6: the claim asserts that encoding is total, including for empty
sequences; `ByteEncoder::encode_slice` of the v0 prototype
(src/src/lib.rs:94-97) violates this by panicking on every empty
slice (`checked_div` by a zero element count), while the later
src/src/encoder.rs:96-101 version guards `total_bytes != 0` and is
total on every input, empty slices and differing element sizes
included.  The `none` outcome models the panic. -/
theorem c6_encode_slice_totality (α : Type) :
    (∀ f : α → List Nat, encodeSliceV0 f ([] : List α) = none) ∧
    (∀ (f : α → List Nat) (xs : List α), (encodeSliceCur f xs).isSome = true) := by
  constructor
  · intro f
    rfl
  · intro f xs
    cases xs with
    | nil => rfl
    | cons x xs => rfl

/-- C7: decoding any strict prefix (one that loses at least one byte)
of a valid encoding fails with `NotEnoughBytes`.  The embedding's
reads are bounds-checked total functions — `read_bytes` returns the
error instead of touching any byte past the end of the prefix — so the
failure is this error, never a panic or an out-of-bounds access. -/
theorem c7_truncation_safety (e : ByteEndian) (t : Ty) (v : Value)
    (h : validV v t = true) (p q : List Nat)
    (hpq : p ++ q = toBytesM v e) (hq : q ≠ []) :
    ∃ nm i, fromBytesM t p e = .error (.NotEnoughBytes nm i) := by
  obtain ⟨nm, i, herr⟩ := truncV e t v h [] p q hpq hq
  simp only [List.nil_append, List.length_nil] at herr
  exact ⟨nm, i, by simp [fromBytesM, herr]⟩

/-- C7 witness: the first 10 bytes of the sample struct's 27-byte
little-endian encoding fail to decode with `NotEnoughBytes`. -/
theorem c7_truncation_safety_witness :
    (validV dataValue dataTy = true ∧
      (toBytesM dataValue .Little).take 10 ++ (toBytesM dataValue .Little).drop 10 =
        toBytesM dataValue .Little ∧
      (toBytesM dataValue .Little).drop 10 ≠ []) ∧
    ∃ nm i, fromBytesM dataTy ((toBytesM dataValue .Little).take 10) .Little =
      .error (.NotEnoughBytes nm i) :=
  ⟨⟨by decide, List.take_append_drop 10 _, by decide⟩,
    c7_truncation_safety .Little dataTy dataValue (by decide)
      ((toBytesM dataValue .Little).take 10) ((toBytesM dataValue .Little).drop 10)
      (List.take_append_drop 10 _) (by decide)⟩

/-- C8: `usize`/`isize` travel as exactly 8 wire bytes regardless of the
host pointer width `ptrW`, both standalone (`encode_usize` =
`encode_u64(value as u64)`, `encode_isize` = `encode_i64`) and as the
sequence length prefix; decode reads exactly 8 bytes back and the
`as usize` cast widens or narrows to the host width. -/
theorem c8_portable_usize_isize (e : ByteEndian) (ptrW : Nat)
    (st : ByteEncoderE) (hst : st.endian = e)
    (n : Nat) (hn : n < 256 ^ 8) (hfit : n < 2 ^ (8 * ptrW))
    (i : Int) (hlo : -(2 ^ (8 * 8 - 1)) ≤ i) (hhi : i < 2 ^ (8 * 8 - 1))
    (es : ValueList) (pre rest : List Nat) :
    (toBytesOf e 8 n).length = 8 ∧
    (encodeUsizeE n st).bytes = st.bytes ++ toBytesOf e 8 n ∧
    (encodeValue e (.seqV es)).take 8 = toBytesOf e 8 es.length ∧
    decodeUsizeB ⟨pre ++ (toBytesOf e 8 n ++ rest), e, pre.length⟩ =
      .ok (n, ⟨pre ++ (toBytesOf e 8 n ++ rest), e, pre.length + 8⟩) ∧
    usizeCast ptrW n = n ∧
    (∀ x, usizeCast ptrW x = x % 2 ^ (8 * ptrW)) ∧
    (toBytesOf e 8 (sToWire 8 i)).length = 8 ∧
    decodeSIntB 8 "i64" ⟨pre ++ (toBytesOf e 8 (sToWire 8 i) ++ rest), e, pre.length⟩ =
      .ok (i, ⟨pre ++ (toBytesOf e 8 (sToWire 8 i) ++ rest), e, pre.length + 8⟩) := by
  refine ⟨toBytesOf_length e 8 n, ?_, ?_,
    decodeUIntB_extract 8 "u64" e pre rest n hn,
    Nat.mod_eq_of_lt hfit, fun x => rfl, toBytesOf_length e 8 _,
    decodeSIntB_extract 8 "i64" e pre rest i (by norm_num) hlo hhi⟩
  · simp [encodeUsizeE, encodeUIntE, hst]
  · rw [encodeValue]
    have hx := List.take_left (toBytesOf e 8 es.length) (encodeList e es)
    rw [toBytesOf_length] at hx
    exact hx

/-- C8 witness: `n = 300` on a 4-byte-pointer host, `i = -5`, both
endiannesses' wire width 8, little-endian shown. -/
theorem c8_portable_usize_isize_witness :
    (300 < 256 ^ 8 ∧ 300 < 2 ^ (8 * 4) ∧
      -(2 ^ (8 * 8 - 1)) ≤ (-5 : Int) ∧ (-5 : Int) < 2 ^ (8 * 8 - 1)) ∧
    (toBytesOf .Little 8 300).length = 8 ∧
    usizeCast 4 300 = 300 :=
  ⟨⟨by decide, by decide, by decide, by decide⟩,
    (c8_portable_usize_isize .Little 4 ⟨[], .Little⟩ rfl 300 (by decide) (by decide)
      (-5) (by decide) (by decide) .nil [] []).1,
    (c8_portable_usize_isize .Little 4 ⟨[], .Little⟩ rfl 300 (by decide) (by decide)
      (-5) (by decide) (by decide) .nil [] []).2.2.2.2.1⟩

/-- C9: for a byte block holding `len * w` bytes of a `w`-byte
primitive element under the host's native endianness, the zero-copy
bulk decode (modelled from the disabled block of `v2::decode_slice`)
yields exactly the output of the naive element-wise loop, and the
compiled `decode_slice` — in which the bulk branch is never taken —
returns that same output. -/
theorem c9_fast_path_equivalence (w : Nat) (nm : String) (len : Nat)
    (body : List Nat) (e : ByteEndian) (hw : 0 < w) (hlen : len < 256 ^ 8)
    (hbody : body.length = len * w) (hnative : e.isNative = true) :
    v2DecodeSlicePrim w nm ⟨byteLE 8 len ++ body, e, 0⟩ =
      .ok (v2BulkDecode w len (byteLE 8 len ++ body) 8,
        ⟨byteLE 8 len ++ body, e, 8 + len * w⟩) ∧
    v2ElemLoop w nm len ⟨byteLE 8 len ++ body, e, 8⟩ =
      .ok (v2BulkDecode w len (byteLE 8 len ++ body) 8,
        ⟨byteLE 8 len ++ body, e, 8 + len * w⟩) := by
  have hlen8 : (byteLE 8 len ++ body).length = 8 + len * w := by
    rw [List.length_append, byteLE_length, hbody]
  have hloop := v2ElemLoop_bulk w nm hw len ⟨byteLE 8 len ++ body, e, 8⟩
    (by simp only; omega)
  simp only at hloop
  refine ⟨?_, hloop⟩
  have hread := v2ReadBytes_ok 8 "u64" ⟨byteLE 8 len ++ body, e, 0⟩
    (by simp only; omega)
  simp only at hread
  have htake : (List.drop 0 (byteLE 8 len ++ body)).take 8 = byteLE 8 len := by
    rw [List.drop_zero]
    have hx := List.take_left (byteLE 8 len) body
    rw [byteLE_length] at hx
    exact hx
  rw [htake] at hread
  have hval : fromLE (byteLE 8 len) = len := fromLE_byteLE 8 len hlen
  simp [v2DecodeSlicePrim, v2DecodeUInt, hread, hval, hlen8, hloop]

/-- C9 witness: two little-endian u32 values [258, 772] from an 8-byte
block. -/
theorem c9_fast_path_equivalence_witness :
    (0 < 4 ∧ 2 < 256 ^ 8 ∧
      ([2, 1, 0, 0, 4, 3, 0, 0] : List Nat).length = 2 * 4 ∧
      ByteEndian.Little.isNative = true) ∧
    v2DecodeSlicePrim 4 "u32" ⟨byteLE 8 2 ++ [2, 1, 0, 0, 4, 3, 0, 0], .Little, 0⟩ =
      .ok (v2BulkDecode 4 2 (byteLE 8 2 ++ [2, 1, 0, 0, 4, 3, 0, 0]) 8,
        ⟨byteLE 8 2 ++ [2, 1, 0, 0, 4, 3, 0, 0], .Little, 8 + 2 * 4⟩) :=
  ⟨⟨by decide, by decide, by decide, by decide⟩,
    (c9_fast_path_equivalence 4 "u32" 2 [2, 1, 0, 0, 4, 3, 0, 0] .Little
      (by decide) (by decide) (by decide) (by decide)).1⟩

/-- C10: a map entry's wire layout is the key's complete encoding
immediately followed by the value's; decoding reads the key first
(a key failure is the entry's failure) and then the value, consuming
the contiguous key-then-value span. -/
theorem c10_map_entry_layout (e : ByteEndian) (kt vt : Ty) (k v : Value)
    (hk : validV k kt = true) (hv : validV v vt = true) (pre rest : List Nat) :
    encodeMapEntry e k v = encodeValue e k ++ encodeValue e v ∧
    decodeMapEntry kt vt ⟨pre ++ (encodeMapEntry e k v ++ rest), e, pre.length⟩ =
      .ok ((k, v), ⟨pre ++ (encodeMapEntry e k v ++ rest), e,
        pre.length + ((encodeValue e k).length + (encodeValue e v).length)⟩) ∧
    (∀ d er, decodeTy kt d = .error er → decodeMapEntry kt vt d = .error er) := by
  refine ⟨rfl, ?_, ?_⟩
  · have h1 := rtV e kt k hk pre (encodeValue e v ++ rest)
    simp only [List.append_assoc] at h1
    have h2 := rtV e vt v hv (pre ++ encodeValue e k) rest
    simp only [List.append_assoc, List.length_append] at h2
    simp only [encodeMapEntry, List.append_assoc]
    simp [decodeMapEntry, h1, h2]
    omega
  · intro d er herr
    simp [decodeMapEntry, herr]

/-- C10 witness: entry (u8 7, u16 258) little-endian. -/
theorem c10_map_entry_layout_witness :
    (validV (.uintV 1 7) (.uintT 1) = true ∧ validV (.uintV 2 258) (.uintT 2) = true) ∧
    decodeMapEntry (.uintT 1) (.uintT 2)
        ⟨([] : List Nat) ++ (encodeMapEntry .Little (.uintV 1 7) (.uintV 2 258) ++ ([] : List Nat)),
          .Little, List.length ([] : List Nat)⟩ =
      .ok ((.uintV 1 7, .uintV 2 258),
        ⟨([] : List Nat) ++ (encodeMapEntry .Little (.uintV 1 7) (.uintV 2 258) ++ ([] : List Nat)),
          .Little,
          List.length ([] : List Nat) +
            ((encodeValue .Little (.uintV 1 7)).length +
              (encodeValue .Little (.uintV 2 258)).length)⟩) :=
  ⟨⟨by decide, by decide⟩,
    (c10_map_entry_layout .Little (.uintT 1) (.uintT 2) (.uintV 1 7) (.uintV 2 258)
      (by decide) (by decide) [] []).2.1⟩
